import Mathlib

/-!
Verification development for the ts-pretty source-formatting plugin.

The definitions below are a shallow embedding of the repository's core:
the in-memory compiler host (`src/cust-compiler-host.ts`), the format
settings resolver and the quote-style print helper (`src/index.ts`).
Strings are modelled as `List Char`, JS `Map` objects as association
lists, and the loosely typed option values as an explicit `JsVal` union.
-/

namespace TsPretty

/-! ## Text spans and text changes (ts.TextChange) -/

structure TextSpan where
  start : Nat
  length : Nat
deriving DecidableEq, Repr

structure TextChange where
  span : TextSpan
  newText : List Char
deriving DecidableEq, Repr

/-- One splice step of `applyTextChanges`:
`newText.slice(0, span.start) + textChange.newText + newText.slice(span.start + span.length)`.
`List.take`/`List.drop` clamp out-of-range indices exactly as JS `slice` does
for non-negative arguments. -/
def spliceOne (s : List Char) (tc : TextChange) : List Char :=
  s.take tc.span.start ++ tc.newText ++ s.drop (tc.span.start + tc.span.length)

/-- The precedes-or-ties relation realised by the JS comparator
`(a, b) => b.span.start - a.span.start`: `a` may stay before `b`
exactly when `b.span.start ≤ a.span.start`. -/
def descLe (a b : TextChange) : Bool :=
  decide (b.span.start ≤ a.span.start)

/-- Stable insertion step for a comparator `le` (the element being inserted
comes from earlier in the input, so it goes in front of the first element it
is allowed to precede). -/
def insertBy (le : TextChange → TextChange → Bool) (tc : TextChange) :
    List TextChange → List TextChange
  | [] => [tc]
  | x :: xs => if le tc x then tc :: x :: xs else x :: insertBy le tc xs

/-- Stable comparator sort, modelling JS `Array.prototype.sort`. -/
def sortBy (le : TextChange → TextChange → Bool) :
    List TextChange → List TextChange
  | [] => []
  | tc :: rest => insertBy le tc (sortBy le rest)

/-- `textChanges.slice(0).sort((a, b) => b.span.start - a.span.start)`:
the batch sorted by descending start offset. -/
def sortChangesDesc (tcs : List TextChange) : List TextChange :=
  sortBy descLe tcs

/-- The pure content transformation performed by
`CustCompilerHost.applyTextChanges` (the sort-descending-then-splice loop),
applied to the file's current content. -/
def applyTextChangesText (s : List Char) (tcs : List TextChange) : List Char :=
  (sortChangesDesc tcs).foldl spliceOne s

/-! ## Spec-side description of patch application

`independentSplice` is modelled from the spec's words (§8, patch application
correctness): splicing each edit independently against the *original*
offsets, i.e. keeping the original text between the (ascending) edit ranges
and substituting each replacement for its own range. -/

/-- The original characters of `s` in the half-open range `[a, b)`. -/
def segmentOf (s : List Char) (a b : Nat) : List Char :=
  (s.drop a).take (b - a)

/-- Splice an ascending batch: original text between edit ranges,
replacements inside them. -/
def spliceSegments (s : List Char) : Nat → List TextChange → List Char
  | pos, [] => s.drop pos
  | pos, tc :: rest =>
      segmentOf s pos tc.span.start ++ tc.newText
        ++ spliceSegments s (tc.span.start + tc.span.length) rest

/-- The ascending comparator (spec side). -/
def ascLe (a b : TextChange) : Bool :=
  decide (a.span.start ≤ b.span.start)

/-- The batch sorted by ascending start offset (spec side). -/
def sortChangesAsc (tcs : List TextChange) : List TextChange :=
  sortBy ascLe tcs

/-- Modelled from the spec: the result of splicing every edit of the batch
independently against the original offsets of `s`. -/
def independentSplice (s : List Char) (tcs : List TextChange) : List Char :=
  spliceSegments s 0 (sortChangesAsc tcs)

/-- Two edits are non-overlapping (with distinct anchors): one range ends at
or before the other starts, strictly ordered by start offset. -/
abbrev Sep (a b : TextChange) : Prop :=
  (a.span.start + a.span.length ≤ b.span.start ∧ a.span.start < b.span.start) ∨
  (b.span.start + b.span.length ≤ a.span.start ∧ b.span.start < a.span.start)

/-- `Sep` is symmetric. -/
theorem Sep.symm {a b : TextChange} (h : Sep a b) : Sep b a :=
  h.elim Or.inr Or.inl

/-! ## Sorting lemmas -/

theorem insertBy_perm (le : TextChange → TextChange → Bool) (tc : TextChange)
    (l : List TextChange) : (insertBy le tc l).Perm (tc :: l) := by
  induction l with
  | nil => exact List.Perm.refl _
  | cons x xs ih =>
      by_cases h : le tc x
      · simp [insertBy, h]
      · simp only [insertBy, h, if_neg, Bool.false_eq_true, not_false_iff]
        exact (ih.cons x).trans (List.Perm.swap tc x xs)

theorem sortBy_perm (le : TextChange → TextChange → Bool)
    (l : List TextChange) : (sortBy le l).Perm l := by
  induction l with
  | nil => exact List.Perm.refl _
  | cons tc rest ih =>
      exact (insertBy_perm le tc (sortBy le rest)).trans (ih.cons tc)

theorem mem_insertBy {le : TextChange → TextChange → Bool} {tc y : TextChange}
    {l : List TextChange} (h : y ∈ insertBy le tc l) : y = tc ∨ y ∈ l := by
  have := (insertBy_perm le tc l).mem_iff.mp h
  simpa using this

theorem insertBy_pairwise {le : TextChange → TextChange → Bool}
    (htrans : ∀ a b c, le a b = true → le b c = true → le a c = true)
    (htot : ∀ a b, le a b = true ∨ le b a = true)
    {tc : TextChange} {l : List TextChange}
    (h : l.Pairwise (fun a b => le a b = true)) :
    (insertBy le tc l).Pairwise (fun a b => le a b = true) := by
  induction l with
  | nil => simp [insertBy]
  | cons x xs ih =>
      rcases List.pairwise_cons.mp h with ⟨hx, hxs⟩
      by_cases hle : le tc x = true
      · rw [show insertBy le tc (x :: xs) = tc :: x :: xs by simp [insertBy, hle]]
        refine List.pairwise_cons.mpr ⟨?_, h⟩
        intro y hy
        rcases List.mem_cons.mp hy with rfl | hy
        · exact hle
        · exact htrans tc x y hle (hx y hy)
      · have hxtc : le x tc = true := (htot tc x).resolve_left hle
        rw [show insertBy le tc (x :: xs) = x :: insertBy le tc xs by
              simp [insertBy, hle]]
        refine List.pairwise_cons.mpr ⟨?_, ih hxs⟩
        intro y hy
        rcases mem_insertBy hy with rfl | hy
        · exact hxtc
        · exact hx y hy

theorem sortBy_pairwise {le : TextChange → TextChange → Bool}
    (htrans : ∀ a b c, le a b = true → le b c = true → le a c = true)
    (htot : ∀ a b, le a b = true ∨ le b a = true)
    (l : List TextChange) :
    (sortBy le l).Pairwise (fun a b => le a b = true) := by
  induction l with
  | nil => simp [sortBy]
  | cons tc rest ih => exact insertBy_pairwise htrans htot ih

theorem descLe_trans : ∀ a b c : TextChange,
    descLe a b = true → descLe b c = true → descLe a c = true := by
  intro a b c hab hbc
  simp only [descLe, decide_eq_true_eq] at *
  omega

theorem descLe_total : ∀ a b : TextChange,
    descLe a b = true ∨ descLe b a = true := by
  intro a b
  simp only [descLe, decide_eq_true_eq]
  omega

theorem ascLe_trans : ∀ a b c : TextChange,
    ascLe a b = true → ascLe b c = true → ascLe a c = true := by
  intro a b c hab hbc
  simp only [ascLe, decide_eq_true_eq] at *
  omega

theorem ascLe_total : ∀ a b : TextChange,
    ascLe a b = true ∨ ascLe b a = true := by
  intro a b
  simp only [ascLe, decide_eq_true_eq]
  omega

theorem sortChangesDesc_perm (l : List TextChange) :
    (sortChangesDesc l).Perm l :=
  sortBy_perm descLe l

theorem sortChangesAsc_perm (l : List TextChange) :
    (sortChangesAsc l).Perm l :=
  sortBy_perm ascLe l

theorem sortChangesDesc_sorted (l : List TextChange) :
    (sortChangesDesc l).Pairwise
      (fun a b => b.span.start ≤ a.span.start) := by
  refine (sortBy_pairwise descLe_trans descLe_total l).imp ?_
  intro a b h
  exact of_decide_eq_true h

theorem sortChangesAsc_sorted (l : List TextChange) :
    (sortChangesAsc l).Pairwise
      (fun a b => a.span.start ≤ b.span.start) := by
  refine (sortBy_pairwise ascLe_trans ascLe_total l).imp ?_
  intro a b h
  exact of_decide_eq_true h

/-! ## Segment lemmas -/

theorem length_segmentOf (s : List Char) (a b : Nat) :
    (segmentOf s a b).length = min (b - a) (s.length - a) := by
  simp [segmentOf]

theorem take_spliceSegments (s : List Char) (pos k : Nat)
    (l : List TextChange) (hpos : pos ≤ k) (hks : k ≤ s.length)
    (hhead : ∀ tc, l.head? = some tc → k ≤ tc.span.start) :
    (spliceSegments s pos l).take (k - pos) = segmentOf s pos k := by
  cases l with
  | nil => rfl
  | cons tc rest =>
      have hk : k ≤ tc.span.start := hhead tc rfl
      have hlen : k - pos ≤ (segmentOf s pos tc.span.start).length := by
        rw [length_segmentOf]; omega
      simp only [spliceSegments]
      rw [List.append_assoc, List.take_append_of_le_length hlen]
      simp only [segmentOf, List.take_take]
      congr 1
      omega

theorem drop_segmentOf (s : List Char) (pos k b : Nat) (hpos : pos ≤ k) :
    (segmentOf s pos b).drop (k - pos) = segmentOf s k b := by
  simp only [segmentOf]
  rw [List.drop_take, List.drop_drop]
  have h1 : b - pos - (k - pos) = b - k := by omega
  have h2 : pos + (k - pos) = k := by omega
  rw [h1, h2]

theorem drop_spliceSegments (s : List Char) (pos k : Nat)
    (l : List TextChange) (hpos : pos ≤ k) (hks : k ≤ s.length)
    (hhead : ∀ tc, l.head? = some tc → k ≤ tc.span.start) :
    (spliceSegments s pos l).drop (k - pos) = spliceSegments s k l := by
  cases l with
  | nil =>
      simp only [spliceSegments]
      rw [List.drop_drop]
      congr 1
      omega
  | cons tc rest =>
      have hk : k ≤ tc.span.start := hhead tc rfl
      have hlen : k - pos ≤ (segmentOf s pos tc.span.start).length := by
        rw [length_segmentOf]; omega
      simp only [spliceSegments]
      rw [List.append_assoc, List.drop_append_of_le_length hlen,
        ← List.append_assoc, drop_segmentOf s pos k tc.span.start hpos]

/-! ## The chain of well-placed ascending edits -/

/-- The edits of `l` sit at ascending, non-overlapping positions starting at
or after `pos`, all within the bounds of `s`. -/
def ChainOk (s : List Char) : Nat → List TextChange → Prop
  | pos, [] => pos ≤ s.length
  | pos, tc :: rest =>
      pos ≤ tc.span.start ∧ tc.span.start + tc.span.length ≤ s.length ∧
      ChainOk s (tc.span.start + tc.span.length) rest

theorem ChainOk.head_le {s : List Char} {pos : Nat} {l : List TextChange}
    (h : ChainOk s pos l) :
    ∀ tc, l.head? = some tc → pos ≤ tc.span.start := by
  cases l with
  | nil => intro tc htc; simp at htc
  | cons x xs =>
      intro tc htc
      simp only [List.head?_cons, Option.some.injEq] at htc
      subst htc
      exact h.1

theorem ChainOk.mono {s : List Char} {p q : Nat} {l : List TextChange}
    (h : ChainOk s p l) (hq : q ≤ p) : ChainOk s q l := by
  cases l with
  | nil => exact le_trans hq h
  | cons tc rest => exact ⟨le_trans hq h.1, h.2.1, h.2.2⟩

theorem chainOk_of_pairwise (s : List Char) (l : List TextChange) :
    ∀ pos : Nat, pos ≤ s.length →
    (∀ tc ∈ l, pos ≤ tc.span.start) →
    (∀ tc ∈ l, tc.span.start + tc.span.length ≤ s.length) →
    l.Pairwise
      (fun a b => a.span.start + a.span.length ≤ b.span.start) →
    ChainOk s pos l := by
  induction l with
  | nil => intro pos h _ _ _; exact h
  | cons tc rest ih =>
      intro pos hposS hpos hb hp
      rcases List.pairwise_cons.mp hp with ⟨htc, hrest⟩
      refine ⟨hpos tc (by simp), hb tc (by simp), ?_⟩
      exact ih (tc.span.start + tc.span.length) (hb tc (by simp))
        (fun f hf => htc f hf)
        (fun f hf => hb f (by simp [hf]))
        hrest

theorem foldr_spliceOne (s : List Char) (l : List TextChange)
    (h : ChainOk s 0 l) :
    l.foldr (fun tc acc => spliceOne acc tc) s = spliceSegments s 0 l := by
  induction l with
  | nil => simp [spliceSegments]
  | cons tc rest ih =>
      obtain ⟨hpos, hb, hrest⟩ := h
      have h0 : ChainOk s 0 rest := hrest.mono (Nat.zero_le _)
      rw [List.foldr_cons, ih h0]
      have hhead : ∀ f, rest.head? = some f →
          tc.span.start + tc.span.length ≤ f.span.start := hrest.head_le
      have h1 : (spliceSegments s 0 rest).take tc.span.start =
          segmentOf s 0 tc.span.start := by
        have := take_spliceSegments s 0 tc.span.start rest (Nat.zero_le _)
          (by omega) (fun f hf => le_trans (by omega) (hhead f hf))
        simpa using this
      have h2 : (spliceSegments s 0 rest).drop
          (tc.span.start + tc.span.length) =
          spliceSegments s (tc.span.start + tc.span.length) rest := by
        have := drop_spliceSegments s 0 (tc.span.start + tc.span.length)
          rest (Nat.zero_le _) hb hhead
        simpa using this
      simp only [spliceOne, spliceSegments]
      rw [h1, h2]

/-- A permutation between two lists that are both strictly sorted on start
offsets forces them to be equal. -/
theorem eq_of_perm_of_strictSorted {l1 l2 : List TextChange}
    (hp : l1.Perm l2)
    (h1 : l1.Pairwise (fun a b => a.span.start < b.span.start))
    (h2 : l2.Pairwise (fun a b => a.span.start < b.span.start)) :
    l1 = l2 := by
  haveI : IsAntisymm TextChange
      (fun a b => a.span.start < b.span.start) :=
    ⟨fun a b hab hba => absurd (lt_trans hab hba) (lt_irrefl _)⟩
  exact List.eq_of_perm_of_sorted hp h1 h2

/-- C1: for every string S and every batch of non-overlapping TextEdits,
each valid within the bounds of S, the sort-descending-then-splice loop of
`CustCompilerHost.applyTextChanges` produces exactly the result of splicing
each edit independently against the original offsets of S, regardless of
the order in which the edits appear in the input batch. Non-overlap is
taken with distinct start offsets (`Sep`), matching the engine guarantee
the spec records for the batch. -/
theorem applyTextChanges_correct (s : List Char)
    (edits editsAny : List TextChange)
    (hperm : editsAny.Perm edits)
    (hbounds : ∀ tc ∈ edits,
      tc.span.start + tc.span.length ≤ s.length)
    (hsep : edits.Pairwise Sep) :
    applyTextChangesText s editsAny = independentSplice s edits := by
  have hdp : (sortChangesDesc editsAny).Perm edits :=
    (sortChangesDesc_perm editsAny).trans hperm
  have hap : (sortChangesAsc edits).Perm edits := sortChangesAsc_perm edits
  have hsepd : (sortChangesDesc editsAny).Pairwise Sep :=
    (List.Perm.pairwise_iff (fun h => Sep.symm h) hdp).mpr hsep
  have hsepa : (sortChangesAsc edits).Pairwise Sep :=
    (List.Perm.pairwise_iff (fun h => Sep.symm h) hap).mpr hsep
  have hdstrict : (sortChangesDesc editsAny).Pairwise
      (fun x y => y.span.start < x.span.start) := by
    refine ((sortChangesDesc_sorted editsAny).and hsepd).imp ?_
    rintro x y ⟨hxy, hs⟩
    rcases hs with ⟨_, h2⟩ | ⟨_, h2⟩ <;> omega
  have hastrict : (sortChangesAsc edits).Pairwise
      (fun x y => x.span.start < y.span.start) := by
    refine ((sortChangesAsc_sorted edits).and hsepa).imp ?_
    rintro x y ⟨hxy, hs⟩
    rcases hs with ⟨_, h2⟩ | ⟨_, h2⟩ <;> omega
  have hdrev : (sortChangesDesc editsAny).reverse.Pairwise
      (fun x y => x.span.start < y.span.start) :=
    List.pairwise_reverse.mpr hdstrict
  have heq : (sortChangesDesc editsAny).reverse = sortChangesAsc edits :=
    eq_of_perm_of_strictSorted
      (((sortChangesDesc editsAny).reverse_perm.trans hdp).trans hap.symm)
      hdrev hastrict
  have hchain : ChainOk s 0 (sortChangesAsc edits) := by
    apply chainOk_of_pairwise
    · exact Nat.zero_le _
    · intro tc _; exact Nat.zero_le _
    · intro tc htc; exact hbounds tc (hap.mem_iff.mp htc)
    · refine (hastrict.and hsepa).imp ?_
      rintro x y ⟨hlt, hs⟩
      rcases hs with ⟨h1, _⟩ | ⟨h1, h2⟩
      · exact h1
      · omega
  calc applyTextChangesText s editsAny
      = (sortChangesDesc editsAny).foldl spliceOne s := rfl
    _ = (sortChangesAsc edits).reverse.foldl spliceOne s := by
        rw [← heq, List.reverse_reverse]
    _ = (sortChangesAsc edits).foldr (fun tc acc => spliceOne acc tc) s :=
        List.foldl_reverse (sortChangesAsc edits) spliceOne s
    _ = spliceSegments s 0 (sortChangesAsc edits) :=
        foldr_spliceOne s (sortChangesAsc edits) hchain
    _ = independentSplice s edits := rfl

/-- The insertion edit of the spec scenario: insert `X` at offset 5. -/
def editX : TextChange := ⟨⟨5, 0⟩, ['X']⟩

/-- The replacement edit of the spec scenario: replace `[0, 5)` with
`HELLO`. -/
def editHello : TextChange := ⟨⟨0, 5⟩, ['H', 'E', 'L', 'L', 'O']⟩

/-- Witness for C1: the spec scenario batch applied to `01234abc` yields
`HELLOXabc` in either input order. -/
theorem applyTextChanges_correct_witness :
    applyTextChangesText ("01234abc".toList) [editX, editHello] =
      "HELLOXabc".toList ∧
    applyTextChangesText ("01234abc".toList) [editHello, editX] =
      "HELLOXabc".toList := by
  have h1 := applyTextChanges_correct ("01234abc".toList)
    [editX, editHello] [editX, editHello] (List.Perm.refl _)
    (by decide) (by decide)
  have h2 := applyTextChanges_correct ("01234abc".toList)
    [editX, editHello] [editHello, editX]
    (List.Perm.swap editX editHello []) (by decide) (by decide)
  exact ⟨by rw [h1]; decide, by rw [h2]; decide⟩

/-! ## Association-list model of JS `Map` objects -/

/-- `Map.get`: the value bound to `k`, if any. -/
def mapGet {α : Type} (m : List (String × α)) (k : String) : Option α :=
  match m with
  | [] => none
  | kv :: rest => if kv.1 = k then some kv.2 else mapGet rest k

/-- `Map.set`: bind `k` to `v`, replacing an existing binding. -/
def mapSet {α : Type} (m : List (String × α)) (k : String) (v : α) :
    List (String × α) :=
  match m with
  | [] => [(k, v)]
  | kv :: rest => if kv.1 = k then (k, v) :: rest else kv :: mapSet rest k v

theorem mapGet_set_self {α : Type} (m : List (String × α)) (k : String)
    (v : α) : mapGet (mapSet m k v) k = some v := by
  induction m with
  | nil => simp [mapGet, mapSet]
  | cons kv rest ih =>
      by_cases h : kv.1 = k
      · simp [mapGet, mapSet, h]
      · simp [mapGet, mapSet, h, ih]

theorem mapGet_set_ne {α : Type} (m : List (String × α)) (k q : String)
    (v : α) (hne : k ≠ q) : mapGet (mapSet m k v) q = mapGet m q := by
  induction m with
  | nil => simp [mapGet, mapSet, hne]
  | cons kv rest ih =>
      by_cases h : kv.1 = k
      · simp [mapGet, mapSet, h, hne]
      · simp only [mapSet, h, if_neg, ite_false]
        by_cases h2 : kv.1 = q
        · simp [mapGet, h2]
        · simp [mapGet, h2, ih]

/-! ## The in-memory compiler host (`CustCompilerHost`) -/

/-- The mutable state of a `CustCompilerHost`: the `files`, `fileVersions`
and `sourceFiles` maps. A parsed source file is represented by the text it
was created from. -/
structure CustCompilerHost where
  files : List (String × List Char)
  fileVersions : List (String × Nat)
  sourceFiles : List (String × List Char)
deriving DecidableEq, Repr

/-- The state built by the constructor: three empty maps. -/
def emptyHost : CustCompilerHost := ⟨[], [], []⟩

/-- `CustCompilerHost.writeFile`: store the text, refresh a previously
parsed source file, and bump the version counter
(`(fileVersions.get(fileName) ?? 1) + 1`). -/
def writeFile (st : CustCompilerHost) (fileName : String)
    (text : List Char) : CustCompilerHost :=
  let files := mapSet st.files fileName text
  let sourceFiles :=
    match mapGet st.sourceFiles fileName with
    | some _ => mapSet st.sourceFiles fileName text
    | none => st.sourceFiles
  let newVers := (mapGet st.fileVersions fileName).getD 1 + 1
  { files := files, sourceFiles := sourceFiles,
    fileVersions := mapSet st.fileVersions fileName newVers }

/-- `CustCompilerHost.getScriptVersion`: the stored counter as a string,
`"1"` for a path that was never written. -/
def getScriptVersion (st : CustCompilerHost) (fileName : String) : String :=
  match mapGet st.fileVersions fileName with
  | some v => toString v
  | none => "1"

/-- The numeric version a path currently reports
(`getScriptVersion` renders this number as a string). -/
def scriptVersionNat (st : CustCompilerHost) (fileName : String) : Nat :=
  (mapGet st.fileVersions fileName).getD 1

/-- `CustCompilerHost.readFile`: serve from the store when present,
otherwise consult the backing filesystem `sys` and cache a truthy
(non-empty) result. The third component counts backing-filesystem reads
performed by the call. -/
def readFile (st : CustCompilerHost) (sys : String → Option (List Char))
    (fileName : String) : Option (List Char) × CustCompilerHost × Nat :=
  match mapGet st.files fileName with
  | some c => (some c, st, 0)
  | none =>
      match sys fileName with
      | some content =>
          if content ≠ [] then
            (some content,
              { st with files := mapSet st.files fileName content }, 1)
          else (some content, st, 1)
      | none => (none, st, 1)

/-- `CustCompilerHost.applyTextChanges` at the host level: read the file's
current content, splice the batch, write the result back. A missing file is
reported as `none` (the JS code would throw on the non-null assertion). -/
def applyTextChanges (st : CustCompilerHost)
    (sys : String → Option (List Char)) (fileName : String)
    (tcs : List TextChange) : Option (List Char) × CustCompilerHost :=
  let r := readFile st sys fileName
  match r.1 with
  | none => (none, r.2.1)
  | some s =>
      let newText := applyTextChangesText s tcs
      (some newText, writeFile r.2.1 fileName newText)

/-! ## C2: write versioning -/

/-- Counterexample to C2 as stated: the very first write to a fresh path
reports version `"2"`, not `"1"` (the absent counter is defaulted to 1 and
then incremented). -/
theorem getScriptVersion_first_write_ne_one :
    getScriptVersion (writeFile emptyHost "a.ts" ['x']) "a.ts" ≠ "1" := by
  decide

/-- C2 (amended): before any write a path reports version 1; every write
bumps the reported version by exactly 1 whatever text is written (so the
first write to a fresh path reports `"2"`), and the rendered string is
always the decimal form of the numeric version. -/
theorem writeFile_version (st : CustCompilerHost) (p : String)
    (t : List Char) :
    scriptVersionNat (writeFile st p t) p = scriptVersionNat st p + 1 ∧
    getScriptVersion st p = toString (scriptVersionNat st p) ∧
    (mapGet st.fileVersions p = none →
      getScriptVersion (writeFile st p t) p = "2") := by
  refine ⟨?_, ?_, ?_⟩
  · simp [scriptVersionNat, writeFile, mapGet_set_self]
  · unfold getScriptVersion scriptVersionNat
    cases mapGet st.fileVersions p <;> rfl
  · intro h
    simp [getScriptVersion, writeFile, mapGet_set_self, h]
    decide

/-- Witness for C2 (amended): two successive writes of the same text to a
fresh path report versions `"2"` then `"3"`. -/
theorem writeFile_version_witness :
    scriptVersionNat (writeFile emptyHost "a.ts" ['x']) "a.ts" =
      scriptVersionNat emptyHost "a.ts" + 1 ∧
    getScriptVersion (writeFile emptyHost "a.ts" ['x']) "a.ts" = "2" ∧
    getScriptVersion
      (writeFile (writeFile emptyHost "a.ts" ['x']) "a.ts" ['x'])
      "a.ts" = "3" := by
  refine ⟨(writeFile_version emptyHost "a.ts" ['x']).1,
    (writeFile_version emptyHost "a.ts" ['x']).2.2 (by decide), ?_⟩
  decide

/-! ## C4: read-through caching -/

/-- A backing filesystem holding one empty file `e.ts`. -/
def sysEmptyFile : String → Option (List Char) :=
  fun p => if p = "e.ts" then some [] else none

/-- A backing filesystem holding one non-empty file `a.ts`. -/
def sysXFile : String → Option (List Char) :=
  fun p => if p = "a.ts" then some ['x'] else none

/-- Counterexample to C4 as stated: for a backing file whose content is the
empty string, `readFile` caches nothing (the JS truthiness test rejects
`""`), so a second `readFile` performs a second backing read. -/
theorem readFile_empty_not_cached :
    mapGet (readFile emptyHost sysEmptyFile "e.ts").2.1.files "e.ts" =
      none ∧
    (readFile (readFile emptyHost sysEmptyFile "e.ts").2.1 sysEmptyFile
      "e.ts").2.2 ≠ 0 := by
  decide

/-- C4 (amended): for a path not in the store, `readFile` performs at most
one backing read; a *non-empty* backing result is cached so a second read
returns the identical content with no backing read; an absent backing file
yields `none` and leaves the store unchanged. (An empty-string backing
result is returned but not cached, so later reads hit the backing
filesystem again.) -/
theorem readFile_read_through (st : CustCompilerHost)
    (sys : String → Option (List Char)) (p : String)
    (h0 : mapGet st.files p = none) :
    (∀ c, sys p = some c → c ≠ [] →
      readFile st sys p =
        (some c, { st with files := mapSet st.files p c }, 1) ∧
      readFile (readFile st sys p).2.1 sys p =
        (some c, (readFile st sys p).2.1, 0)) ∧
    (sys p = none → readFile st sys p = (none, st, 1)) ∧
    (readFile st sys p).2.2 ≤ 1 := by
  refine ⟨?_, ?_, ?_⟩
  · intro c hc hcne
    have h1 : readFile st sys p =
        (some c, { st with files := mapSet st.files p c }, 1) := by
      simp [readFile, h0, hc, hcne]
    refine ⟨h1, ?_⟩
    rw [h1]
    simp [readFile, mapGet_set_self]
  · intro hc
    simp [readFile, h0, hc]
  · unfold readFile
    rw [h0]
    cases sys p with
    | none => simp
    | some c => by_cases hc : c = [] <;> simp [hc]

/-- Witness for C4 (amended): reading `a.ts` (backing content `x`) caches
it, and the second read returns the same content with zero backing reads;
reading the absent `b.ts` returns `none`. -/
theorem readFile_read_through_witness :
    readFile (readFile emptyHost sysXFile "a.ts").2.1 sysXFile "a.ts" =
      (some ['x'], (readFile emptyHost sysXFile "a.ts").2.1, 0) ∧
    readFile emptyHost sysXFile "b.ts" = (none, emptyHost, 1) := by
  refine ⟨((readFile_read_through emptyHost sysXFile "a.ts"
      (by decide)).1 ['x'] (by decide) (by decide)).2, ?_⟩
  exact (readFile_read_through emptyHost sysXFile "b.ts"
    (by decide)).2.1 (by decide)

/-! ## C10: the caller's edits array is not mutated

JS arrays are heap references, so mutation is modelled on an explicit heap
of arrays: `textChanges.slice(0)` allocates a fresh array, `.sort(...)`
mutates it in place, and the claim is that the caller's array cell is
untouched. -/

/-- A heap of `TextChange` arrays; a reference is an index. -/
abbrev ArrayHeap : Type := List (List TextChange)

/-- Dereference (an invalid reference yields the empty array). -/
def heapGet (h : ArrayHeap) (r : Nat) : List TextChange :=
  List.getD h r []

/-- In-place update of the array a reference points to. -/
def heapSet (h : ArrayHeap) (r : Nat) (v : List TextChange) : ArrayHeap :=
  List.set h r v

/-- Allocate a fresh array (as `slice(0)` does), returning its reference. -/
def heapAlloc (h : ArrayHeap) (v : List TextChange) : ArrayHeap × Nat :=
  (h ++ [v], h.length)

/-- The `applyTextChanges` splice loop with the argument array handled as a
heap reference: copy with `slice(0)`, sort the copy in place, fold the
splices over the content. -/
def applyTextChangesHeap (h : ArrayHeap) (argRef : Nat)
    (content : List Char) : List Char × ArrayHeap :=
  let alloc := heapAlloc h (heapGet h argRef)
  let copyRef := alloc.2
  let h2 := heapSet alloc.1 copyRef (sortChangesDesc (heapGet alloc.1 copyRef))
  ((heapGet h2 copyRef).foldl spliceOne content, h2)

theorem heapGet_concat (h : ArrayHeap) (v : List TextChange) :
    heapGet (h ++ [v]) h.length = v := by
  unfold heapGet
  rw [List.getD_eq_getElem?_getD, List.getElem?_concat_length]
  rfl

theorem heapGet_set_self (h : ArrayHeap) (r : Nat) (v : List TextChange)
    (hr : r < h.length) : heapGet (heapSet h r v) r = v := by
  unfold heapGet heapSet
  rw [List.getD_eq_getElem?_getD, List.getElem?_set_self hr]
  rfl

theorem heapGet_set_ne (h : ArrayHeap) (r q : Nat) (v : List TextChange)
    (hne : r ≠ q) : heapGet (heapSet h r v) q = heapGet h q := by
  unfold heapGet heapSet
  rw [List.getD_eq_getElem?_getD, List.getElem?_set_ne hne,
    ← List.getD_eq_getElem?_getD]

theorem heapGet_append_left (h : ArrayHeap) (v : List TextChange)
    (r : Nat) (hr : r < h.length) : heapGet (h ++ [v]) r = heapGet h r := by
  unfold heapGet
  rw [List.getD_eq_getElem?_getD, List.getElem?_append, if_pos hr,
    ← List.getD_eq_getElem?_getD]

/-- C10: `applyTextChanges` leaves the caller's `textChanges` array
unchanged in both element order and contents — the descending sort happens
on the `slice(0)` copy — while still computing the sorted splice of the
caller's batch. -/
theorem applyTextChanges_arg_unchanged (h : ArrayHeap) (argRef : Nat)
    (content : List Char) (hr : argRef < h.length) :
    heapGet (applyTextChangesHeap h argRef content).2 argRef =
      heapGet h argRef ∧
    (applyTextChangesHeap h argRef content).1 =
      applyTextChangesText content (heapGet h argRef) := by
  have hv : heapGet (h ++ [heapGet h argRef]) h.length =
      heapGet h argRef := heapGet_concat h _
  constructor
  · show heapGet (heapSet (h ++ [heapGet h argRef]) h.length
        (sortChangesDesc (heapGet (h ++ [heapGet h argRef]) h.length)))
        argRef = heapGet h argRef
    rw [heapGet_set_ne _ _ _ _ (by omega), heapGet_append_left h _ argRef hr]
  · show (heapGet (heapSet (h ++ [heapGet h argRef]) h.length
        (sortChangesDesc (heapGet (h ++ [heapGet h argRef]) h.length)))
        h.length).foldl spliceOne content =
        applyTextChangesText content (heapGet h argRef)
    rw [heapGet_set_self _ _ _ (by simp), hv]
    rfl

/-- Witness for C10: the scenario batch behind a heap reference is intact
after the call, and the call still returns the spliced text. -/
theorem applyTextChanges_arg_unchanged_witness :
    heapGet (applyTextChangesHeap [[editX, editHello]] 0
      ("01234abc".toList)).2 0 = [editX, editHello] ∧
    (applyTextChangesHeap [[editX, editHello]] 0 ("01234abc".toList)).1 =
      "HELLOXabc".toList := by
  have h := applyTextChanges_arg_unchanged [[editX, editHello]] 0
    ("01234abc".toList) (by decide)
  exact ⟨by rw [h.1]; decide, by rw [h.2]; decide⟩

/-! ## Loosely typed JS option values -/

/-- A JS value as the option bag may carry it. -/
inductive JsVal where
  | undef
  | null
  | b (v : Bool)
  | n (v : Int)
  | s (v : String)
deriving DecidableEq, Repr

/-- JS truthiness. -/
def truthy : JsVal → Bool
  | .undef => false
  | .null => false
  | .b v => v
  | .n v => decide (v ≠ 0)
  | .s v => decide (v ≠ "")

/-- A scalar value of a `ts.FormatCodeSettings` property. -/
inductive SettingVal where
  | b (v : Bool)
  | n (v : Int)
  | s (v : String)
deriving DecidableEq, Repr

/-- The prettier option fields consulted by the parser. -/
structure ParserOpts where
  endOfLine : JsVal
  semi : JsVal
  tabWidth : JsVal
  useTabs : JsVal
  bracketSpacing : JsVal
  singleQuote : JsVal
  tspTsFormat : JsVal
deriving DecidableEq, Repr

/-- `Map.delete` / JS `delete`: drop the binding of `k`. -/
def mapDelete {α : Type} (m : List (String × α)) (k : String) :
    List (String × α) :=
  match m with
  | [] => []
  | kv :: rest => if kv.1 = k then rest else kv :: mapDelete rest k

theorem mapGet_delete_ne {α : Type} (m : List (String × α)) (k q : String)
    (hne : k ≠ q) : mapGet (mapDelete m k) q = mapGet m q := by
  induction m with
  | nil => rfl
  | cons kv rest ih =>
      by_cases h : kv.1 = k
      · have h2 : kv.1 ≠ q := by rw [h]; exact hne
        simp [mapDelete, mapGet, h, h2, hne]
      · by_cases h2 : kv.1 = q
        · have h3 : ¬ q = k := fun hqk => h (h2.trans hqk)
          simp [mapDelete, mapGet, h, h2, h3]
        · simp [mapDelete, mapGet, h, h2, ih]

/-! ## The format settings resolver (`TypeScriptParser.makeFormatCodeSettings`)

The settings object is an association list keyed by the
`ts.FormatCodeSettings` property names. String enum members keep their
TypeScript values (`SemicolonPreference.Insert = "insert"` …); the numeric
enum member `IndentStyle.Smart` is 2. -/

/-- `DefaultFormatCodeSettings` of `src/index.ts` (`newLineCharacter` is
`os.EOL`, passed in as `osEOL`). -/
def defaultFormatCodeSettings (osEOL : String) :
    List (String × SettingVal) :=
  [("baseIndentSize", .n 0),
   ("newLineCharacter", .s osEOL),
   ("convertTabsToSpaces", .b false),
   ("tabSize", .n 1),
   ("indentSize", .n 1),
   ("indentStyle", .n 2),
   ("trimTrailingWhitespace", .b true),
   ("insertSpaceAfterCommaDelimiter", .b true),
   ("insertSpaceAfterSemicolonInForStatements", .b true),
   ("insertSpaceBeforeAndAfterBinaryOperators", .b true),
   ("insertSpaceAfterConstructor", .b true),
   ("insertSpaceAfterKeywordsInControlFlowStatements", .b true),
   ("insertSpaceAfterFunctionKeywordForAnonymousFunctions", .b true),
   ("insertSpaceAfterOpeningAndBeforeClosingNonemptyParenthesis", .b false),
   ("insertSpaceAfterOpeningAndBeforeClosingNonemptyBrackets", .b false),
   ("insertSpaceAfterOpeningAndBeforeClosingNonemptyBraces", .b true),
   ("insertSpaceAfterOpeningAndBeforeClosingEmptyBraces", .b false),
   ("insertSpaceAfterOpeningAndBeforeClosingTemplateStringBraces", .b false),
   ("insertSpaceAfterOpeningAndBeforeClosingJsxExpressionBraces", .b false),
   ("insertSpaceAfterTypeAssertion", .b true),
   ("insertSpaceBeforeFunctionParenthesis", .b false),
   ("placeOpenBraceOnNewLineForFunctions", .b false),
   ("placeOpenBraceOnNewLineForControlBlocks", .b false),
   ("insertSpaceBeforeTypeAnnotation", .b false),
   ("indentMultiLineObjectLiteralBeginningOnBlankLine", .b true),
   ("semicolons", .s "insert")]

/-- The `switch (options.endOfLine)` statement. -/
def stepEndOfLine (options : ParserOpts) (format : List (String × SettingVal)) :
    List (String × SettingVal) :=
  if options.endOfLine = .s "crlf" then
    mapSet format "newLineCharacter" (.s "\r\n")
  else if options.endOfLine = .s "lf" then
    mapSet format "newLineCharacter" (.s "\n")
  else if options.endOfLine = .s "cr" then
    mapSet format "newLineCharacter" (.s "\r")
  else mapDelete format "newLineCharacter"

/-- `if (typeof options.semi === 'boolean') format.semicolons = …`. -/
def stepSemi (options : ParserOpts) (format : List (String × SettingVal)) :
    List (String × SettingVal) :=
  match options.semi with
  | .b v => mapSet format "semicolons" (.s (if v then "insert" else "remove"))
  | _ => format

/-- `if (typeof options.tabWidth === 'number')
format.indentSize = format.tabSize = options.tabWidth`. -/
def stepTabWidth (options : ParserOpts) (format : List (String × SettingVal)) :
    List (String × SettingVal) :=
  match options.tabWidth with
  | .n w => mapSet (mapSet format "tabSize" (.n w)) "indentSize" (.n w)
  | _ => format

/-- The `useTabs` block: assign `convertTabsToSpaces = !useTabs` and, when
the freshly assigned flag is true and `tabWidth` is a number, force both
sizes to 1; with no boolean `useTabs`, delete `convertTabsToSpaces`. -/
def stepUseTabs (options : ParserOpts) (format : List (String × SettingVal)) :
    List (String × SettingVal) :=
  match options.useTabs with
  | .b v =>
      let format2 := mapSet format "convertTabsToSpaces" (.b (!v))
      if !v then
        match options.tabWidth with
        | .n _ => mapSet (mapSet format2 "tabSize" (.n 1)) "indentSize" (.n 1)
        | _ => format2
      else format2
  | _ => mapDelete format "convertTabsToSpaces"

/-- `if (typeof options.bracketSpacing === 'boolean') …`. -/
def stepBracketSpacing (options : ParserOpts)
    (format : List (String × SettingVal)) : List (String × SettingVal) :=
  match options.bracketSpacing with
  | .b v =>
      mapSet format "insertSpaceAfterOpeningAndBeforeClosingNonemptyBrackets"
        (.b v)
  | _ => format

/-- The settings built by `makeFormatCodeSettings` before the override-file
merge: the statement sequence of the method applied to a deep copy of the
defaults. -/
def formatBase (osEOL : String) (options : ParserOpts) :
    List (String × SettingVal) :=
  stepBracketSpacing options (stepUseTabs options (stepTabWidth options
    (stepSemi options (stepEndOfLine options
      (defaultFormatCodeSettings osEOL)))))

/-- `lodash.merge(format, overrides)`: every override key wins (the values
are scalars, so the deep merge is a per-key overwrite). -/
def lodashMerge (base ov : List (String × SettingVal)) :
    List (String × SettingVal) :=
  ov.foldl (fun acc kv => mapSet acc kv.1 kv.2) base

/-- The per-instance state of `TypeScriptParser`: the lazily cached parsed
override file. -/
structure TypeScriptParser where
  formatOverrides : Option (List (String × SettingVal))
deriving DecidableEq, Repr

/-- `TypeScriptParser.makeFormatCodeSettings`. `readTsFormat` stands for
`json5Parse(fs.readFileSync(path))`: it maps the `tspTsFormat` path value
to the parsed override contents. -/
def makeFormatCodeSettings (self : TypeScriptParser)
    (readTsFormat : JsVal → List (String × SettingVal))
    (osEOL : String) (options : ParserOpts) :
    List (String × SettingVal) × TypeScriptParser :=
  let format := formatBase osEOL options
  if truthy options.tspTsFormat then
    let ov := self.formatOverrides.getD (readTsFormat options.tspTsFormat)
    (lodashMerge format ov, ⟨some ov⟩)
  else (format, self)

/-- An override reader standing for a missing/empty override file. -/
def emptyReader : JsVal → List (String × SettingVal) := fun _ => []

/-- Options: `useTabs = true`, `tabWidth = 4`, nothing else set. -/
def tabOpts : ParserOpts :=
  ⟨.undef, .undef, .n 4, .b true, .undef, .undef, .undef⟩

/-- Options: `useTabs = false`, `tabWidth = 4`, nothing else set. -/
def spaceOpts : ParserOpts :=
  ⟨.undef, .undef, .n 4, .b false, .undef, .undef, .undef⟩

/-- C3: evaluation of the code at the claimed input. With
`useTabs = true, tabWidth = 4` the resolver returns
`tabSize = indentSize = 4` — not 1 as the spec and the code's own inline
comment (a tab is always a single character; rendering is the editor's
concern) prescribe. The force-to-1 branch fires on the inverted condition
instead (`useTabs = false`), where it clobbers a requested 4-space indent
down to 1. -/
theorem makeFormatCodeSettings_useTabs_divergence :
    mapGet (makeFormatCodeSettings ⟨none⟩ emptyReader "\n" tabOpts).1
      "tabSize" = some (.n 4) ∧
    mapGet (makeFormatCodeSettings ⟨none⟩ emptyReader "\n" tabOpts).1
      "indentSize" = some (.n 4) ∧
    mapGet (makeFormatCodeSettings ⟨none⟩ emptyReader "\n" spaceOpts).1
      "tabSize" = some (.n 1) ∧
    mapGet (makeFormatCodeSettings ⟨none⟩ emptyReader "\n" spaceOpts).1
      "indentSize" = some (.n 1) := by
  decide

/-! ## C7: endOfLine = auto deletes the newline key -/

theorem mapGet_delete_newLine (osEOL : String) :
    mapGet (mapDelete (defaultFormatCodeSettings osEOL) "newLineCharacter")
      "newLineCharacter" = none := by
  simp [defaultFormatCodeSettings, mapDelete, mapGet]

theorem stepSemi_get_other (options : ParserOpts)
    (format : List (String × SettingVal)) (q : String)
    (hq : q ≠ "semicolons") :
    mapGet (stepSemi options format) q = mapGet format q := by
  unfold stepSemi
  cases options.semi <;>
    simp [mapGet_set_ne _ _ _ _ (Ne.symm hq)]

theorem stepTabWidth_get_other (options : ParserOpts)
    (format : List (String × SettingVal)) (q : String)
    (hq1 : q ≠ "tabSize") (hq2 : q ≠ "indentSize") :
    mapGet (stepTabWidth options format) q = mapGet format q := by
  unfold stepTabWidth
  cases options.tabWidth <;>
    simp [mapGet_set_ne _ _ _ _ (Ne.symm hq1),
      mapGet_set_ne _ _ _ _ (Ne.symm hq2)]

theorem stepUseTabs_get_other (options : ParserOpts)
    (format : List (String × SettingVal)) (q : String)
    (hq1 : q ≠ "convertTabsToSpaces") (hq2 : q ≠ "tabSize")
    (hq3 : q ≠ "indentSize") :
    mapGet (stepUseTabs options format) q = mapGet format q := by
  unfold stepUseTabs
  cases options.useTabs <;>
    try simp [mapGet_delete_ne _ _ _ (Ne.symm hq1)]
  case b v =>
    cases v
    · cases options.tabWidth <;>
        simp [mapGet_set_ne _ _ _ _ (Ne.symm hq1),
          mapGet_set_ne _ _ _ _ (Ne.symm hq2),
          mapGet_set_ne _ _ _ _ (Ne.symm hq3)]
    · simp [mapGet_set_ne _ _ _ _ (Ne.symm hq1)]

theorem stepBracketSpacing_get_other (options : ParserOpts)
    (format : List (String × SettingVal)) (q : String)
    (hq : q ≠ "insertSpaceAfterOpeningAndBeforeClosingNonemptyBrackets") :
    mapGet (stepBracketSpacing options format) q = mapGet format q := by
  unfold stepBracketSpacing
  cases options.bracketSpacing <;>
    simp [mapGet_set_ne _ _ _ _ (Ne.symm hq)]

/-- A reader standing for an override file that supplies an explicit
`newLineCharacter`. -/
def newLineReader : JsVal → List (String × SettingVal) :=
  fun _ => [("newLineCharacter", .s "\n")]

/-- Options: `endOfLine = "auto"` together with an override-file path. -/
def autoWithOverrideOpts : ParserOpts :=
  ⟨.s "auto", .undef, .undef, .undef, .undef, .undef, .s "fmt.json5"⟩

/-- Counterexample to C7 as stated: an options bag with
`endOfLine = "auto"` that also names an override file whose contents carry
`newLineCharacter` produces a settings object in which the key *is*
present (the override merge runs after the deletion). -/
theorem endOfLine_auto_key_reappears :
    mapGet (makeFormatCodeSettings ⟨none⟩ newLineReader "\r\n"
      autoWithOverrideOpts).1 "newLineCharacter" ≠ none := by
  decide

/-- C7 (amended): with `endOfLine = "auto"` the explicit `newLineCharacter`
entry is deleted from the settings (not set to a default); for every
options bag that names no override file, the returned settings object has
no `newLineCharacter` key at all. (An override file merged afterwards can
reintroduce the key.) -/
theorem endOfLine_auto_no_newline_key (self : TypeScriptParser)
    (rdr : JsVal → List (String × SettingVal)) (osEOL : String)
    (options : ParserOpts) (hauto : options.endOfLine = .s "auto")
    (hfmt : truthy options.tspTsFormat = false) :
    mapGet (makeFormatCodeSettings self rdr osEOL options).1
      "newLineCharacter" = none := by
  unfold makeFormatCodeSettings
  simp only [hfmt, Bool.false_eq_true, if_false]
  unfold formatBase
  rw [stepBracketSpacing_get_other _ _ _ (by decide),
    stepUseTabs_get_other _ _ _ (by decide) (by decide) (by decide),
    stepTabWidth_get_other _ _ _ (by decide) (by decide),
    stepSemi_get_other _ _ _ (by decide)]
  unfold stepEndOfLine
  rw [hauto]
  simp only [JsVal.s.injEq]
  rw [if_neg (by decide), if_neg (by decide), if_neg (by decide)]
  exact mapGet_delete_newLine osEOL

/-- Options: `endOfLine = "auto"`, nothing else set. -/
def autoOpts : ParserOpts :=
  ⟨.s "auto", .undef, .undef, .undef, .undef, .undef, .undef⟩

/-- Witness for C7 (amended): with `endOfLine = "auto"` and no override
file the resolved settings have no `newLineCharacter` key. -/
theorem endOfLine_auto_no_newline_key_witness :
    mapGet (makeFormatCodeSettings ⟨none⟩ emptyReader "\r\n" autoOpts).1
      "newLineCharacter" = none :=
  endOfLine_auto_no_newline_key ⟨none⟩ emptyReader "\r\n" autoOpts rfl rfl

/-! ## C6: settings resolution is deterministic per instance -/

/-- C6: on one parser instance, resolving the same options bag twice gives
equal settings objects, whatever the override file's on-disk content is at
the time of the second call (`rdr2` is arbitrary): the override file is
read and parsed at most once per instance. -/
theorem makeFormatCodeSettings_deterministic (st : TypeScriptParser)
    (rdr1 rdr2 : JsVal → List (String × SettingVal)) (osEOL : String)
    (opts : ParserOpts) :
    (makeFormatCodeSettings (makeFormatCodeSettings st rdr1 osEOL opts).2
      rdr2 osEOL opts).1 = (makeFormatCodeSettings st rdr1 osEOL opts).1 := by
  unfold makeFormatCodeSettings
  cases hb : truthy opts.tspTsFormat
  · simp [hb]
  · simp [hb]

/-! ## C9: the override cache is keyed to the instance, not the path -/

/-- C9: once a first call has loaded override path P1, every later call on
the same instance — with any other truthy override path and any
backing-file state (`rdr2` arbitrary) — still merges the cached contents of
P1 and leaves the cache untouched; the supplied second path is never
read. -/
theorem makeFormatCodeSettings_cache_ignores_path (st0 : TypeScriptParser)
    (rdr1 rdr2 : JsVal → List (String × SettingVal))
    (osEOL1 osEOL2 : String) (opts1 opts2 : ParserOpts)
    (h0 : st0.formatOverrides = none)
    (h1 : truthy opts1.tspTsFormat = true)
    (h2 : truthy opts2.tspTsFormat = true) :
    (makeFormatCodeSettings st0 rdr1 osEOL1 opts1).2.formatOverrides =
      some (rdr1 opts1.tspTsFormat) ∧
    (makeFormatCodeSettings (makeFormatCodeSettings st0 rdr1 osEOL1
      opts1).2 rdr2 osEOL2 opts2).1 =
      lodashMerge (formatBase osEOL2 opts2) (rdr1 opts1.tspTsFormat) ∧
    (makeFormatCodeSettings (makeFormatCodeSettings st0 rdr1 osEOL1
      opts1).2 rdr2 osEOL2 opts2).2 =
      (makeFormatCodeSettings st0 rdr1 osEOL1 opts1).2 := by
  unfold makeFormatCodeSettings
  simp [h0, h1, h2]

/-- First-call reader: path `p1.json5` holds `tabSize = 9`. -/
def readerP1 : JsVal → List (String × SettingVal) :=
  fun p => if p = .s "p1.json5" then [("tabSize", .n 9)] else []

/-- Second-call reader: every path now holds `tabSize = 7`. -/
def readerP2 : JsVal → List (String × SettingVal) :=
  fun _ => [("tabSize", .n 7)]

/-- Options naming override path `p1.json5`. -/
def optsP1 : ParserOpts :=
  ⟨.undef, .undef, .undef, .undef, .undef, .undef, .s "p1.json5"⟩

/-- Options naming the different override path `p2.json5`. -/
def optsP2 : ParserOpts :=
  ⟨.undef, .undef, .undef, .undef, .undef, .undef, .s "p2.json5"⟩

/-- Witness for C9: after loading `p1.json5` (`tabSize = 9`), a second call
naming `p2.json5` with a reader that would deliver `tabSize = 7` still
resolves `tabSize = 9` from the instance cache. -/
theorem makeFormatCodeSettings_cache_ignores_path_witness :
    (makeFormatCodeSettings ⟨none⟩ readerP1 "\n" optsP1).2.formatOverrides
      = some (readerP1 optsP1.tspTsFormat) ∧
    mapGet (makeFormatCodeSettings (makeFormatCodeSettings ⟨none⟩ readerP1
      "\n" optsP1).2 readerP2 "\n" optsP2).1 "tabSize" = some (.n 9) := by
  have h := makeFormatCodeSettings_cache_ignores_path ⟨none⟩ readerP1
    readerP2 "\n" "\n" optsP1 optsP2 rfl (by decide) (by decide)
  exact ⟨h.1, by rw [h.2.1]; decide⟩

/-! ## The quote-style print helper (`TypeScriptParser.tsPrintSourceFile`)

`ts.getLiteralText` is a process-wide function-valued hook. Only its
identity matters for the restoration claim, so hooks are modelled as
identity tokens: the original function plus the wrapper built around it. -/

/-- A value of the process-wide `ts.getLiteralText` slot. -/
inductive Hook where
  | base (id : Nat)
  | wrapped (inner : Hook)
deriving DecidableEq, Repr

/-- The mutable process-wide state of the `ts` module. -/
structure GlobalTs where
  getLiteralText : Hook
deriving DecidableEq, Repr

/-- `ts.SyntaxKind.StringLiteral`. -/
def stringLiteralKind : Nat := 11

/-- A syntax-tree node: its kind, its `singleQuote` tag (absent until
written), and its children. -/
inductive TsNode where
  | mk (kind : Nat) (singleQuote : Option Bool) (children : List TsNode)

/-- The `visitNode` traversal: write the resolved quote flag onto every
string-literal node, recursing into all children. -/
def visitNode (sq : Bool) : TsNode → TsNode
  | .mk kind q children =>
      .mk kind (if kind = stringLiteralKind then some sq else q)
        (children.attach.map (fun c => visitNode sq c.1))
decreasing_by
  have := List.sizeOf_lt_of_mem c.2
  simp only [TsNode.mk.sizeOf_spec]
  omega

/-- JS `String.prototype.toLowerCase` (ASCII range). -/
def strToLower (s : String) : String :=
  String.mk (s.data.map Char.toLower)

/-- The `singleQuote` resolution ladder at the top of
`tsPrintSourceFile`: boolean taken as-is; `null`/`'0'`/`0` are explicit
falsy sentinels; a string lowercasing to `false`/`null`/`no` is falsy and
any other truthy string is truthy; otherwise plain JS truthiness; a falsy
non-sentinel (such as `undefined`) leaves the preference unset. -/
def resolveSingleQuote : JsVal → Option Bool
  | .b x => some x
  | v =>
      if v = .null ∨ v = .s "0" ∨ v = .n 0 then some false
      else
        match v with
        | .s str =>
            if strToLower str = "false" ∨ strToLower str = "null" ∨
                strToLower str = "no" then some false
            else if truthy (.s str) then some true
            else none
        | _ => if truthy v then some true else none

/-- The tree handed to the printer: tagged when a quote preference was
resolved, untouched otherwise (`if (typeof singleQuote === 'boolean')
visitNode(sourceFile)`). -/
def taggedSource (options : ParserOpts) (sourceFile : TsNode) : TsNode :=
  match resolveSingleQuote options.singleQuote with
  | some b => visitNode b sourceFile
  | none => sourceFile

/-- JS `try { body } finally { fin }` over the process-wide state: the body
runs to an outcome (value or thrown error) threading the state, the
finalizer then runs, and the outcome is delivered unchanged. -/
def tryFinallyTs (body : GlobalTs → Except String (List Char) × GlobalTs)
    (fin : GlobalTs → GlobalTs) (g : GlobalTs) :
    Except String (List Char) × GlobalTs :=
  let r := body g
  (r.1, fin r.2)

/-- `TypeScriptParser.tsPrintSourceFile`: resolve the quote preference, tag
the tree, save the current `ts.getLiteralText`, install the wrapper, print
under the patched hook (`printNode` is the external printer, which may
throw), and restore the saved hook in a `finally`. -/
def tsPrintSourceFile
    (printNode : Hook → TsNode → Except String (List Char))
    (g : GlobalTs) (options : ParserOpts) (sourceFile : TsNode) :
    Except String (List Char) × GlobalTs :=
  let sf := taggedSource options sourceFile
  let getLiteralTextWrapper := g.getLiteralText
  let patched : GlobalTs := ⟨Hook.wrapped getLiteralTextWrapper⟩
  tryFinallyTs (fun gcur => (printNode gcur.getLiteralText sf, gcur))
    (fun _ => ⟨getLiteralTextWrapper⟩) patched

/-- C5: `tsPrintSourceFile` restores the process-wide `ts.getLiteralText`
hook to its prior identity on every exit path; its outcome is exactly the
printer's outcome under the patched hook, so in particular a print error
propagates to the caller unmodified with the hook still restored. -/
theorem tsPrintSourceFile_restores
    (printNode : Hook → TsNode → Except String (List Char))
    (g : GlobalTs) (options : ParserOpts) (sourceFile : TsNode) :
    (tsPrintSourceFile printNode g options sourceFile).2 = g ∧
    (tsPrintSourceFile printNode g options sourceFile).1 =
      printNode (Hook.wrapped g.getLiteralText)
        (taggedSource options sourceFile) ∧
    (∀ e, printNode (Hook.wrapped g.getLiteralText)
        (taggedSource options sourceFile) = Except.error e →
      (tsPrintSourceFile printNode g options sourceFile).1 =
        Except.error e ∧
      (tsPrintSourceFile printNode g options sourceFile).2 = g) := by
  refine ⟨rfl, rfl, ?_⟩
  intro e he
  exact ⟨he, rfl⟩

/-- A printer that always throws. -/
def pnErr : Hook → TsNode → Except String (List Char) :=
  fun _ _ => Except.error "print failed"

/-- An option bag with every field absent. -/
def allUndefOpts : ParserOpts :=
  ⟨.undef, .undef, .undef, .undef, .undef, .undef, .undef⟩

/-- A childless sample node. -/
def sampleNode : TsNode := TsNode.mk 0 none []

/-- Witness for C5: with a printer that throws, the error comes back
unmodified and the hook identity `Hook.base 0` is restored. -/
theorem tsPrintSourceFile_restores_witness :
    (tsPrintSourceFile pnErr ⟨Hook.base 0⟩ allUndefOpts sampleNode).1 =
      Except.error "print failed" ∧
    (tsPrintSourceFile pnErr ⟨Hook.base 0⟩ allUndefOpts sampleNode).2 =
      ⟨Hook.base 0⟩ :=
  (tsPrintSourceFile_restores pnErr ⟨Hook.base 0⟩ allUndefOpts
    sampleNode).2.2 "print failed" rfl

/-- C8: the quote-preference ladder of `tsPrintSourceFile` sends the string
`no` (or `false`/`null`, in any letter case), the literal values `false`,
`0`, `'0'` and `null` to "double quotes requested"; boolean `true` to
"single quotes requested"; and an absent preference to no resolution at
all, in which case the printed tree is the untagged original. -/
theorem singleQuote_resolution :
    (∀ str : String, strToLower str = "no" ∨ strToLower str = "false" ∨
        strToLower str = "null" →
      resolveSingleQuote (.s str) = some false) ∧
    resolveSingleQuote (.b false) = some false ∧
    resolveSingleQuote (.n 0) = some false ∧
    resolveSingleQuote (.s "0") = some false ∧
    resolveSingleQuote .null = some false ∧
    resolveSingleQuote (.b true) = some true ∧
    resolveSingleQuote .undef = none ∧
    (∀ (printNode : Hook → TsNode → Except String (List Char))
        (g : GlobalTs) (options : ParserOpts) (sourceFile : TsNode),
      options.singleQuote = .undef →
      tsPrintSourceFile printNode g options sourceFile =
        (printNode (Hook.wrapped g.getLiteralText) sourceFile, g)) := by
  refine ⟨?_, by decide, by decide, by decide, by decide, by decide,
    by decide, ?_⟩
  · intro str h
    have h0 : str ≠ "0" := by
      intro he
      subst he
      rcases h with h | h | h <;> exact absurd h (by decide)
    have hC : ¬(JsVal.s str = JsVal.null ∨ JsVal.s str = JsVal.s "0" ∨
        JsVal.s str = JsVal.n 0) := by
      rintro (h2 | h2 | h2)
      · exact JsVal.noConfusion h2
      · injection h2 with he; exact h0 he
      · exact JsVal.noConfusion h2
    have hlow : strToLower str = "false" ∨ strToLower str = "null" ∨
        strToLower str = "no" := by tauto
    simp only [resolveSingleQuote]
    rw [if_neg hC, if_pos hlow]
  · intro printNode g options sourceFile hopt
    have hq : resolveSingleQuote options.singleQuote = none := by
      rw [hopt]; decide
    simp only [tsPrintSourceFile, tryFinallyTs, taggedSource, hq]

/-- Witness for C8: the mixed-case string `No` resolves to double quotes,
and an absent preference passes the tree to the printer untagged. -/
theorem singleQuote_resolution_witness :
    resolveSingleQuote (.s "No") = some false ∧
    tsPrintSourceFile pnErr ⟨Hook.base 0⟩ allUndefOpts sampleNode =
      (pnErr (Hook.wrapped (Hook.base 0)) sampleNode, ⟨Hook.base 0⟩) :=
  ⟨singleQuote_resolution.1 "No" (Or.inl (by decide)),
    singleQuote_resolution.2.2.2.2.2.2.2 pnErr ⟨Hook.base 0⟩ allUndefOpts
      sampleNode rfl⟩

end TsPretty
